import Mathlib

/-!
Verification of the product co-purchase recommendation engine
(`app/shop/recommender.py`).

The engine is embedded shallowly:

* a Redis sorted set (zset) is an association list from member id to score;
* the Redis database is a function from key strings to zsets;
* the `Recommender` methods are state-passing functions over a system state
  that also records the sequence of store calls issued (the trace), a
  per-call failure schedule (modelling `RedisError` being raised by an
  individual store call), and a call counter;
* Django `Product` records are identified with their integer primary keys;
  the catalog collaborator is a list of known product ids.

Keys are genuine strings, built with the decimal rendering `Nat.repr`
(the embedding of Python's `str(product_id)`), so key-collision questions
are settled on the real key texts.
-/

namespace Shop

/-! ### The Redis model: sorted sets, the keyed store, calls and scheduling -/

/-- A Redis sorted set: an association list from member id to score.
Real zsets have unique members; `ZNodup` states that invariant. -/
abbrev ZSet := List (Nat × Int)

/-- Score lookup in a zset (`ZSCORE`): `none` when the member is absent. -/
def zsetGet : ZSet → Nat → Option Int
  | [], _ => none
  | (m', sc) :: z, m => if m' = m then some sc else zsetGet z m

/-- Score with Redis's "absent counts as 0" reading, as `ZINCRBY` treats it. -/
def zscore0 (z : ZSet) (m : Nat) : Int := (zsetGet z m).getD 0

/-- `ZINCRBY`: add `delta` to the member's score, inserting it at score
`delta` when absent. -/
def zincrbyZ : ZSet → Int → Nat → ZSet
  | [], d, m => [(m, d)]
  | (m', sc) :: z, d, m =>
    if m' = m then (m', sc + d) :: z else (m', sc) :: zincrbyZ z d m

/-- `ZREM`: drop the listed members. -/
def zremZ (z : ZSet) (ms : List Nat) : ZSet :=
  z.filter (fun e => decide (e.1 ∉ ms))

/-- `ZUNIONSTORE` content: element-wise sum of the source zsets. -/
def zaddZ (acc : ZSet) (z : ZSet) : ZSet :=
  z.foldl (fun a e => zincrbyZ a e.2 e.1) acc

def zunionZ (zs : List ZSet) : ZSet := zs.foldl zaddZ []

/-- Descending-order comparison on zset entries (score descending; ties kept
in a deterministic order, which the spec leaves unspecified). -/
def relZ (p q : Nat × Int) : Prop := q.2 ≤ p.2

instance : DecidableRel relZ := fun p q => Int.decLe q.2 p.2

instance : IsTotal (Nat × Int) relZ := ⟨fun p q => le_total q.2 p.2⟩

instance : IsTrans (Nat × Int) relZ := ⟨fun _ _ _ h₁ h₂ => le_trans h₂ h₁⟩

/-- `ZRANGE key 0 -1 REV`: all member ids, by score descending. -/
def zrangeDesc (z : ZSet) : List Nat :=
  (List.insertionSort relZ z).map Prod.fst

/-- Member-id uniqueness invariant of a real Redis zset. -/
def ZNodup (z : ZSet) : Prop := (z.map Prod.fst).Nodup

/-- The Redis keyspace: any key not yet written holds the empty zset
(Redis represents an empty zset as an absent key). -/
abbrev Store := String → ZSet

def emptyStore : Store := fun _ => []

def storeSet (st : Store) (k : String) (z : ZSet) : Store :=
  fun k' => if k' = k then z else st k'

/-- Every zset of the keyspace has unique members. -/
def WFStore (st : Store) : Prop := ∀ k, ZNodup (st k)

/-- One Redis client call, as issued by the recommender. -/
inductive RCall where
  | zincrby (key : String) (delta : Int) (member : Nat)
  | zrange (key : String)
  | zunionstore (dest : String) (keys : List String)
  | zrem (key : String) (members : List Nat)
  | del (key : String)
deriving DecidableEq

/-- Effect of one successful call on the keyspace. -/
def applyCall (st : Store) : RCall → Store
  | .zincrby k d m => storeSet st k (zincrbyZ (st k) d m)
  | .zrange _ => st
  | .zunionstore dest keys => storeSet st dest (zunionZ (keys.map st))
  | .zrem k ms => storeSet st k (zremZ (st k) ms)
  | .del k => storeSet st k []

/-- System state threaded through the engine: the keyspace, a failure
schedule (`sched.getD i false = true` means the i-th store call raises
`RedisError`), the call counter, and the trace of issued calls. -/
structure Sys where
  store : Store
  sched : List Bool
  clock : Nat
  trace : List RCall

/-- Issue one store call: it is appended to the trace, the clock advances,
and its effect lands in the keyspace only when the schedule lets it
succeed. Returns the success flag. -/
def issue (s : Sys) (c : RCall) : Sys × Bool :=
  let ok := !(s.sched.getD s.clock false)
  (⟨if ok then applyCall s.store c else s.store, s.sched, s.clock + 1,
    s.trace ++ [c]⟩, ok)

/-! ### The embedded `Recommender` methods

`connected : Bool` models `self.redis` being a live connection (`true`)
or `None` after a failed construction-time connection (`false`).
Products are identified with their integer ids (`p.id`); the Django
catalog is a list of known product ids. The second component of each
result records whether a `RedisError` escaped the method (`true` =
the exception propagated to the caller). -/

/-- `Recommender.get_product_key`. -/
def get_product_key (product_id : Nat) : String :=
  "product:" ++ toString product_id ++ ":purchased_with"

/-- Inner loop of `Recommender.products_bought`:
`for with_id in product_ids: if product_id != with_id: zincrby(...)`. -/
def pbInner (product_id : Nat) : List Nat → Sys → Sys × Bool
  | [], s => (s, false)
  | with_id :: rest, s =>
    if product_id ≠ with_id then
      match issue s (.zincrby (get_product_key product_id) 1 with_id) with
      | (s', true) => pbInner product_id rest s'
      | (s', false) => (s', true)
    else pbInner product_id rest s

/-- Outer loop of `Recommender.products_bought` over `product_ids`. -/
def pbOuter (product_ids : List Nat) : List Nat → Sys → Sys × Bool
  | [], s => (s, false)
  | product_id :: rest, s =>
    match pbInner product_id product_ids s with
    | (s', false) => pbOuter product_ids rest s'
    | (s', true) => (s', true)

/-- `Recommender.products_bought(products)`. -/
def products_bought (connected : Bool) (products : List Nat) (s : Sys) :
    Sys × Bool :=
  if !connected then (s, false)
  else pbOuter products products s

/-- The transient aggregate key of the multi-product branch:
`flat_ids = "".join([str(id) for id in product_ids]); tmp_key = f"tmp_{flat_ids}"`. -/
def tmp_key_of (product_ids : List Nat) : String :=
  "tmp_" ++ String.join (product_ids.map toString)

/-- Python's stable sort key in `products.sort(key=lambda x: suggested_ids.index(x.id))`. -/
def relIdx (suggested_ids : List Nat) (a b : Nat) : Prop :=
  suggested_ids.indexOf a ≤ suggested_ids.indexOf b

instance (sugg : List Nat) : DecidableRel (relIdx sugg) :=
  fun a b => Nat.decLe _ _

instance (sugg : List Nat) : IsTotal Nat (relIdx sugg) :=
  ⟨fun a b => Nat.le_total _ _⟩

instance (sugg : List Nat) : IsTrans Nat (relIdx sugg) :=
  ⟨fun _ _ _ h₁ h₂ => Nat.le_trans h₁ h₂⟩

/-- Catalog resolution (`recommender.py` lines 106-108): fetch the catalog
records whose id is among `suggested_ids` (the catalog hands them back in
its own order), then stable-sort them by rank position. -/
def resolve_products (catalog : List Nat) (suggested_ids : List Nat) :
    List Nat :=
  List.insertionSort (relIdx suggested_ids)
    (catalog.filter (fun i => decide (i ∈ suggested_ids)))

/-- `Recommender.suggest_products_for(products, max_results)`. `none` means
a `RedisError` escaped; `some l` is the returned record list (as ids). -/
def suggest_products_for (connected : Bool) (catalog : List Nat)
    (products : List Nat) (max_results : Nat) (s : Sys) :
    Sys × Option (List Nat) :=
  if !connected then (s, some [])
  else
    match products with
    | [p] =>
      match issue s (.zrange (get_product_key p)) with
      | (s₁, true) =>
        let suggestions :=
          (zrangeDesc (s₁.store (get_product_key p))).take max_results
        (s₁, some (resolve_products catalog suggestions))
      | (s₁, false) => (s₁, none)
    | product_ids =>
      let tk := tmp_key_of product_ids
      match issue s (.zunionstore tk (product_ids.map get_product_key)) with
      | (s₁, false) => (s₁, none)
      | (s₁, true) =>
        match issue s₁ (.zrem tk product_ids) with
        | (s₂, false) => (s₂, none)
        | (s₂, true) =>
          match issue s₂ (.zrange tk) with
          | (s₃, false) => (s₃, none)
          | (s₃, true) =>
            let suggestions := (zrangeDesc (s₃.store tk)).take max_results
            match issue s₃ (.del tk) with
            | (s₄, false) => (s₄, none)
            | (s₄, true) => (s₄, some (resolve_products catalog suggestions))

/-- Deletion loop of `Recommender.clear_purchases` over the catalog ids. -/
def cpGo : List Nat → Sys → Sys × Bool
  | [], s => (s, false)
  | product_id :: rest, s =>
    match issue s (.del (get_product_key product_id)) with
    | (s', true) => cpGo rest s'
    | (s', false) => (s', true)

/-- `Recommender.clear_purchases()`; the id list is what
`Product.objects.values_list("id", flat=True)` enumerates. -/
def clear_purchases (connected : Bool) (catalog_ids : List Nat) (s : Sys) :
    Sys × Bool :=
  if !connected then (s, false)
  else cpGo catalog_ids s

/-- The calls one inner loop of `products_bought` issues. -/
def pbCalls (product_id : Nat) (ws : List Nat) : List RCall :=
  (ws.filter (fun w => decide (product_id ≠ w))).map
    (fun w => RCall.zincrby (get_product_key product_id) 1 w)

/-- The calls the full `products_bought` loop nest issues. -/
def pbCallsAll (product_ids : List Nat) : List Nat → List RCall
  | [] => []
  | a :: rest => pbCalls a product_ids ++ pbCallsAll product_ids rest

/-- Total score delta contributed to key `k`, member `m'` by the outer loop. -/
def outerContrib (product_ids : List Nat) (k : String) (m' : Nat) :
    List Nat → Int
  | [] => 0
  | a :: rest =>
    (if k = get_product_key a ∧ m' ≠ a then (product_ids.count m' : Int) else 0)
      + outerContrib product_ids k m' rest

/-! ### Reachable stores and the self-loop-freedom invariant -/

/-- No product ever carries a score under its own affinity key. -/
def SelfFree (st : Store) : Prop :=
  ∀ p : Nat, zsetGet (st (get_product_key p)) p = none

/-- Keyspaces reachable from an empty store by successful
`products_bought` calls over distinct-product baskets. -/
inductive ReachableStore : Store → Prop where
  | empty : ReachableStore emptyStore
  | record (st : Store) (basket : List Nat) (hr : ReachableStore st)
      (hb : basket.Nodup) :
      ReachableStore ((products_bought true basket ⟨st, [], 0, []⟩).1.store)

/-- The zset whose descending range the `suggest` call reads: the
per-product map in the single case, the remainder of the transient union
after member removal in the multi case. -/
def read_zset (st : Store) (product_ids : List Nat) : ZSet :=
  match product_ids with
  | [p] => st (get_product_key p)
  | ids => zremZ (zunionZ ((ids.map get_product_key).map st)) ids


/-! ### Injectivity of the decimal rendering used in key strings -/

theorem digitChar_inj_lt : ∀ d₁ < 10, ∀ d₂ < 10,
    Nat.digitChar d₁ = Nat.digitChar d₂ → d₁ = d₂ := by decide

theorem toDigitsCore_eq_digits (fuel : Nat) :
    ∀ (n : Nat) (ds : List Char), n ≤ fuel → 0 < n →
      Nat.toDigitsCore 10 (fuel + 1) n ds =
        ((Nat.digits 10 n).map Nat.digitChar).reverse ++ ds := by
  induction fuel with
  | zero =>
    intro n ds hle hpos
    omega
  | succ fuel ih =>
    intro n ds hle hpos
    rw [Nat.toDigitsCore]
    by_cases hdiv : n / 10 = 0
    · rw [if_pos hdiv]
      have hlt : n < 10 := by
        by_contra hge
        push_neg at hge
        have : 1 ≤ n / 10 := (Nat.one_le_div_iff (by norm_num)).mpr hge
        omega
      rw [Nat.digits_def' (by norm_num : (1:Nat) < 10) hpos, hdiv]
      simp [Nat.mod_eq_of_lt hlt]
    · rw [if_neg hdiv]
      have hplt : n / 10 < n := Nat.div_lt_self hpos (by norm_num)
      have h1 : n / 10 ≤ fuel := by omega
      have h2 : 0 < n / 10 := Nat.pos_of_ne_zero hdiv
      rw [ih (n / 10) (Nat.digitChar (n % 10) :: ds) h1 h2]
      rw [Nat.digits_def' (by norm_num : (1:Nat) < 10) hpos]
      simp [List.append_assoc]

theorem toDigits_eq_digits (n : Nat) (hpos : 0 < n) :
    Nat.toDigits 10 n = ((Nat.digits 10 n).map Nat.digitChar).reverse := by
  have := toDigitsCore_eq_digits n n [] (Nat.le_refl n) hpos
  simpa [Nat.toDigits] using this

theorem map_digitChar_inj : ∀ (l₁ l₂ : List Nat),
    (∀ d ∈ l₁, d < 10) → (∀ d ∈ l₂, d < 10) →
    l₁.map Nat.digitChar = l₂.map Nat.digitChar → l₁ = l₂ := by
  intro l₁
  induction l₁ with
  | nil => intro l₂ _ _ h; cases l₂ <;> simp_all
  | cons a t ih =>
    intro l₂ h₁ h₂ h
    cases l₂ with
    | nil => simp_all
    | cons b t₂ =>
      simp only [List.map_cons, List.cons.injEq] at h
      have ha : a = b :=
        digitChar_inj_lt a (h₁ a (by simp)) b (h₂ b (by simp)) h.1
      have ht : t = t₂ :=
        ih t₂ (fun d hd => h₁ d (by simp [hd])) (fun d hd => h₂ d (by simp [hd])) h.2
      rw [ha, ht]

theorem repr_data_eq (n : Nat) : (Nat.repr n).data = Nat.toDigits 10 n := rfl

theorem natRepr_inj {m n : Nat} (h : (Nat.repr m).data = (Nat.repr n).data) :
    m = n := by
  rw [repr_data_eq, repr_data_eq] at h
  rcases Nat.eq_zero_or_pos m with hm | hm <;>
    rcases Nat.eq_zero_or_pos n with hn | hn
  · omega
  · exfalso
    subst hm
    rw [toDigits_eq_digits n hn] at h
    have h' : ((Nat.digits 10 n).map Nat.digitChar).reverse = ['0'] := h.symm
    have h'' : (Nat.digits 10 n).map Nat.digitChar = ['0'] := by
      have := congrArg List.reverse h'
      simpa using this
    have hd : Nat.digits 10 n = [0] := by
      apply map_digitChar_inj (Nat.digits 10 n) [0]
      · intro d hd; exact Nat.digits_lt_base (by norm_num) hd
      · intro d hd; simp at hd; omega
      · simpa using h''
    have : n = 0 := by
      have := Nat.ofDigits_digits 10 n
      rw [hd] at this
      simpa [Nat.ofDigits] using this.symm
    omega
  · exfalso
    subst hn
    rw [toDigits_eq_digits m hm] at h
    have h'' : (Nat.digits 10 m).map Nat.digitChar = ['0'] := by
      have := congrArg List.reverse h
      simpa using this
    have hd : Nat.digits 10 m = [0] := by
      apply map_digitChar_inj (Nat.digits 10 m) [0]
      · intro d hdm; exact Nat.digits_lt_base (by norm_num) hdm
      · intro d hdm; simp at hdm; omega
      · simpa using h''
    have : m = 0 := by
      have := Nat.ofDigits_digits 10 m
      rw [hd] at this
      simpa [Nat.ofDigits] using this.symm
    omega
  · rw [toDigits_eq_digits m hm, toDigits_eq_digits n hn] at h
    have h' : (Nat.digits 10 m).map Nat.digitChar = (Nat.digits 10 n).map Nat.digitChar := by
      have := congrArg List.reverse h
      simpa using this
    have hd : Nat.digits 10 m = Nat.digits 10 n :=
      map_digitChar_inj _ _
        (fun d hd => Nat.digits_lt_base (by norm_num) hd)
        (fun d hd => Nat.digits_lt_base (by norm_num) hd) h'
    exact Nat.digits_inj_iff.mp hd

theorem string_data_append (s t : String) : (s ++ t).data = s.data ++ t.data := by
  cases s; cases t; rfl

/-! ### Basic zset lemmas -/

theorem zsetGet_zincrby_self (z : ZSet) (d : Int) (m : Nat) :
    zsetGet (zincrbyZ z d m) m = some (zscore0 z m + d) := by
  induction z with
  | nil => simp [zincrbyZ, zsetGet, zscore0]
  | cons e t ih =>
    obtain ⟨m', sc⟩ := e
    by_cases h : m' = m
    · subst h
      simp [zincrbyZ, zsetGet, zscore0]
    · simp [zincrbyZ, zsetGet, h, zscore0] at ih ⊢
      exact ih

theorem zsetGet_zincrby_other (z : ZSet) (d : Int) (m m' : Nat)
    (h : m' ≠ m) : zsetGet (zincrbyZ z d m) m' = zsetGet z m' := by
  induction z with
  | nil => simp [zincrbyZ, zsetGet, Ne.symm h]
  | cons e t ih =>
    obtain ⟨m₀, sc⟩ := e
    by_cases h0 : m₀ = m
    · subst h0
      have hne : m₀ ≠ m' := Ne.symm h
      simp [zincrbyZ, zsetGet, hne]
    · simp [zincrbyZ, zsetGet, h0, ih]

theorem zsetGet_zrem_mem (z : ZSet) (ms : List Nat) (m : Nat)
    (h : m ∈ ms) : zsetGet (zremZ z ms) m = none := by
  induction z with
  | nil => simp [zremZ, zsetGet]
  | cons e t ih =>
    obtain ⟨m₀, sc⟩ := e
    by_cases h0 : m₀ ∈ ms
    · simpa [zremZ, List.filter, h0] using ih
    · have hne : m₀ ≠ m := fun hh => h0 (hh ▸ h)
      simpa [zremZ, List.filter, h0, zsetGet, hne] using ih

theorem mem_map_fst_iff_isSome (z : ZSet) (m : Nat) :
    m ∈ z.map Prod.fst ↔ (zsetGet z m).isSome := by
  induction z with
  | nil => simp [zsetGet]
  | cons e t ih =>
    obtain ⟨m₀, sc⟩ := e
    by_cases h0 : m₀ = m
    · subst h0
      simp [zsetGet]
    · have hne : m ≠ m₀ := fun hh => h0 hh.symm
      simp [zsetGet, h0, ih, hne]

theorem mem_map_fst_zincrby (z : ZSet) (d : Int) (m x : Nat) :
    x ∈ (zincrbyZ z d m).map Prod.fst ↔ x ∈ z.map Prod.fst ∨ x = m := by
  induction z with
  | nil => simp [zincrbyZ]
  | cons e t ih =>
    obtain ⟨m₀, sc⟩ := e
    by_cases h0 : m₀ = m
    · subst h0
      simp only [zincrbyZ, if_pos, List.map_cons, List.mem_cons]
      tauto
    · simp only [zincrbyZ, if_neg h0, List.map_cons, List.mem_cons, ih]
      tauto

theorem znodup_zincrby (z : ZSet) (d : Int) (m : Nat) (h : ZNodup z) :
    ZNodup (zincrbyZ z d m) := by
  induction z with
  | nil => simp [zincrbyZ, ZNodup]
  | cons e t ih =>
    obtain ⟨m₀, sc⟩ := e
    simp only [ZNodup, List.map_cons, List.nodup_cons] at h
    by_cases h0 : m₀ = m
    · subst h0
      simpa [ZNodup, zincrbyZ] using h
    · have ht := ih h.2
      simp only [ZNodup, zincrbyZ, if_neg h0, List.map_cons, List.nodup_cons]
      refine ⟨?_, ht⟩
      rw [mem_map_fst_zincrby]
      push_neg
      exact ⟨h.1, h0⟩

theorem znodup_foldl_zincrby (entries : List (Nat × Int)) :
    ∀ acc : ZSet, ZNodup acc →
      ZNodup (entries.foldl (fun a e => zincrbyZ a e.2 e.1) acc) := by
  induction entries with
  | nil => intro acc h; simpa using h
  | cons e t ih =>
    intro acc h
    exact ih _ (znodup_zincrby _ _ _ h)

theorem znodup_zaddZ (acc z : ZSet) (h : ZNodup acc) : ZNodup (zaddZ acc z) :=
  znodup_foldl_zincrby z acc h

theorem znodup_foldl_zaddZ (zs : List ZSet) :
    ∀ acc : ZSet, ZNodup acc → ZNodup (zs.foldl zaddZ acc) := by
  induction zs with
  | nil => intro acc h; simpa using h
  | cons z t ih => intro acc h; exact ih _ (znodup_zaddZ _ _ h)

theorem znodup_zunionZ (zs : List ZSet) : ZNodup (zunionZ zs) :=
  znodup_foldl_zaddZ zs [] (by simp [ZNodup])

theorem znodup_zremZ (z : ZSet) (ms : List Nat) (h : ZNodup z) :
    ZNodup (zremZ z ms) :=
  ((List.filter_sublist z).map Prod.fst).nodup h

theorem zsetGet_of_mem_znodup (z : ZSet) (p : Nat × Int) (hz : ZNodup z)
    (hp : p ∈ z) : zsetGet z p.1 = some p.2 := by
  induction z with
  | nil => cases hp
  | cons e t ih =>
    obtain ⟨m₀, sc⟩ := e
    simp only [ZNodup, List.map_cons, List.nodup_cons] at hz
    rcases List.mem_cons.mp hp with h | h
    · subst h
      simp [zsetGet]
    · have hne : m₀ ≠ p.1 := by
        intro hh
        exact hz.1 (hh ▸ (List.mem_map.mpr ⟨p, h, rfl⟩))
      simpa [zsetGet, hne] using ih hz.2 h

/-! ### Pairwise helpers -/

theorem pairwise_imp_mem {α : Type} {R S : α → α → Prop} :
    ∀ {l : List α}, (∀ a b, a ∈ l → b ∈ l → R a b → S a b) →
      l.Pairwise R → l.Pairwise S := by
  intro l
  induction l with
  | nil => intro _ _; exact List.Pairwise.nil
  | cons a t ih =>
    intro h hp
    rw [List.pairwise_cons] at hp ⊢
    refine ⟨fun b hb => h a b (by simp) (by simp [hb]) (hp.1 b hb), ?_⟩
    exact ih (fun x y hx hy => h x y (by simp [hx]) (by simp [hy])) hp.2

theorem nodup_pairwise_indexOf_lt {l : List Nat} (h : l.Nodup) :
    l.Pairwise (fun a b => l.indexOf a < l.indexOf b) := by
  rw [List.pairwise_iff_get]
  intro i j hij
  have hi : l.indexOf (l.get i) = i.val := by
    simpa using List.indexOf_getElem h i.val i.isLt
  have hj : l.indexOf (l.get j) = j.val := by
    simpa using List.indexOf_getElem h j.val j.isLt
  rw [hi, hj]
  exact hij

/-! ### zrangeDesc lemmas -/

theorem zrangeDesc_perm (z : ZSet) : (zrangeDesc z).Perm (z.map Prod.fst) :=
  (List.perm_insertionSort relZ z).map Prod.fst

theorem zrangeDesc_nodup (z : ZSet) (h : ZNodup z) : (zrangeDesc z).Nodup :=
  (zrangeDesc_perm z).nodup_iff.mpr h

theorem mem_zrangeDesc_iff (z : ZSet) (m : Nat) :
    m ∈ zrangeDesc z ↔ (zsetGet z m).isSome := by
  rw [(zrangeDesc_perm z).mem_iff, mem_map_fst_iff_isSome]

theorem zrangeDesc_sorted (z : ZSet) (h : ZNodup z) :
    (zrangeDesc z).Pairwise (fun a b => zscore0 z b ≤ zscore0 z a) := by
  have hs : (List.insertionSort relZ z).Pairwise relZ :=
    List.sorted_insertionSort relZ z
  have hmem : ∀ p ∈ List.insertionSort relZ z, zsetGet z p.1 = some p.2 :=
    fun p hp =>
      zsetGet_of_mem_znodup z p h ((List.perm_insertionSort relZ z).mem_iff.mp hp)
  rw [zrangeDesc, List.pairwise_map]
  refine pairwise_imp_mem (fun p q hp hq hr => ?_) hs
  have hp' := hmem p hp
  have hq' := hmem q hq
  simp only [zscore0, hp', hq', Option.getD_some]
  exact hr

/-! ### Key injectivity -/

theorem get_product_key_inj {a b : Nat}
    (h : get_product_key a = get_product_key b) : a = b := by
  have hd := congrArg String.data h
  rw [get_product_key, get_product_key, string_data_append, string_data_append,
    string_data_append, string_data_append] at hd
  have h1 : "product:".data ++ (toString a).data =
      "product:".data ++ (toString b).data := List.append_cancel_right hd
  have h2 : (toString a).data = (toString b).data := List.append_cancel_left h1
  exact natRepr_inj h2

/-! ### Behaviour of `issue` and the `products_bought` loops -/

theorem issue_nofail (s : Sys) (c : RCall) (h : s.sched = []) :
    issue s c =
      (⟨applyCall s.store c, [], s.clock + 1, s.trace ++ [c]⟩, true) := by
  obtain ⟨st, sched, clock, tr⟩ := s
  simp only at h
  subst h
  simp [issue]

theorem pbInner_basic (a : Nat) (ws : List Nat) :
    ∀ s : Sys, s.sched = [] →
      (pbInner a ws s).2 = false ∧ (pbInner a ws s).1.sched = [] ∧
        (pbInner a ws s).1.trace = s.trace ++ pbCalls a ws := by
  induction ws with
  | nil => intro s hs; simp [pbInner, pbCalls, hs]
  | cons w rest ih =>
    intro s hs
    by_cases haw : a ≠ w
    · rw [pbInner, if_pos haw, issue_nofail s _ hs]
      have ih' := ih ⟨applyCall s.store (.zincrby (get_product_key a) 1 w), [],
        s.clock + 1, s.trace ++ [.zincrby (get_product_key a) 1 w]⟩ rfl
      simp only at ih'
      refine ⟨ih'.1, ih'.2.1, ?_⟩
      rw [ih'.2.2]
      simp [pbCalls, List.filter, haw]
    · rw [pbInner, if_neg haw]
      have ih' := ih s hs
      refine ⟨ih'.1, ih'.2.1, ?_⟩
      rw [ih'.2.2]
      simp only [not_not] at haw
      simp [pbCalls, List.filter, haw]

theorem zscore0_zincrby_self (z : ZSet) (d : Int) (m : Nat) :
    zscore0 (zincrbyZ z d m) m = zscore0 z m + d := by
  simp [zscore0, zsetGet_zincrby_self]

theorem pbInner_zscore (a : Nat) (ws : List Nat) :
    ∀ s : Sys, s.sched = [] → ∀ (k : String) (m' : Nat),
      zscore0 ((pbInner a ws s).1.store k) m' =
        zscore0 (s.store k) m' +
          (if k = get_product_key a ∧ m' ≠ a then (ws.count m' : Int) else 0) := by
  induction ws with
  | nil => intro s hs k m'; simp [pbInner]
  | cons w rest ih =>
    intro s hs k m'
    by_cases haw : a ≠ w
    · rw [pbInner, if_pos haw, issue_nofail s _ hs]
      have ih' := ih ⟨applyCall s.store (.zincrby (get_product_key a) 1 w), [],
        s.clock + 1, s.trace ++ [.zincrby (get_product_key a) 1 w]⟩ rfl k m'
      simp only at ih'
      rw [ih']
      have hstep : zscore0
          ((applyCall s.store (.zincrby (get_product_key a) 1 w)) k) m' =
          zscore0 (s.store k) m' +
            (if k = get_product_key a ∧ m' = w then 1 else 0) := by
        simp only [applyCall, storeSet]
        by_cases hk : k = get_product_key a
        · rw [if_pos hk]
          by_cases hm : m' = w
          · subst hm
            simp [hk, zscore0_zincrby_self]
          · rw [zscore0, zsetGet_zincrby_other _ _ _ _ hm, ← zscore0]
            simp [hk, hm]
        · rw [if_neg hk]
          simp [hk]
      rw [hstep, List.count_cons]
      by_cases hk : k = get_product_key a
      · by_cases hma : m' = a
        · have hmw : ¬ m' = w := fun hh => haw (hma ▸ hh)
          simp only [hk, hma, hmw]
          simp [haw]
        · by_cases hmw : m' = w
          · simp only [hk, hma, hmw, ne_eq, not_false_iff, and_self, if_true,
              beq_self_eq_true, true_and, ite_true]
            have hwa : ¬ w = a := fun hh => hma (by rw [hmw]; exact hh)
            rw [if_pos hwa, if_pos hwa]
            push_cast
            ring
          · have hwm : ¬ (w == m') = true := by
              simpa using fun hh : w = m' => hmw hh.symm
            simp only [hk, hma, hmw, ne_eq, not_false_iff, and_self, and_false,
              if_false, hwm, true_and, ite_true, ite_false]
            push_cast
            ring
      · simp [hk]
    · rw [pbInner, if_neg haw]
      simp only [not_not] at haw
      rw [ih s hs k m', List.count_cons]
      by_cases hma : m' = a
      · simp [hma]
      · have hwm : ¬ (w == m') = true := by
          simpa using fun hh : w = m' => hma (haw.trans hh).symm
        simp [hma, hwm]

theorem pbInner_untouched (a : Nat) (ws : List Nat) :
    ∀ s : Sys, s.sched = [] → ∀ (k : String) (m' : Nat),
      (k ≠ get_product_key a ∨ m' = a ∨ m' ∉ ws) →
      zsetGet ((pbInner a ws s).1.store k) m' = zsetGet (s.store k) m' := by
  induction ws with
  | nil => intro s hs k m' _; simp [pbInner]
  | cons w rest ih =>
    intro s hs k m' hcond
    by_cases haw : a ≠ w
    · rw [pbInner, if_pos haw, issue_nofail s _ hs]
      have hrest : k ≠ get_product_key a ∨ m' = a ∨ m' ∉ rest := by
        rcases hcond with h | h | h
        · exact Or.inl h
        · exact Or.inr (Or.inl h)
        · exact Or.inr (Or.inr (fun hh => h (List.mem_cons_of_mem _ hh)))
      have ih' := ih ⟨applyCall s.store (.zincrby (get_product_key a) 1 w), [],
        s.clock + 1, s.trace ++ [.zincrby (get_product_key a) 1 w]⟩ rfl k m' hrest
      simp only at ih'
      rw [ih']
      simp only [applyCall, storeSet]
      by_cases hk : k = get_product_key a
      · rw [if_pos hk]
        have hmw : m' ≠ w := by
          rcases hcond with h | h | h
          · exact absurd hk h
          · exact fun hh => haw ((h.symm.trans hh) ▸ rfl)
          · exact fun hh => h (hh ▸ List.mem_cons_self w rest)
        rw [zsetGet_zincrby_other _ _ _ _ hmw, hk]
      · rw [if_neg hk]
    · rw [pbInner, if_neg haw]
      have hrest : k ≠ get_product_key a ∨ m' = a ∨ m' ∉ rest := by
        rcases hcond with h | h | h
        · exact Or.inl h
        · exact Or.inr (Or.inl h)
        · exact Or.inr (Or.inr (fun hh => h (List.mem_cons_of_mem _ hh)))
      exact ih s hs k m' hrest

theorem pbOuter_basic (ids0 : List Nat) (todo : List Nat) :
    ∀ s : Sys, s.sched = [] →
      (pbOuter ids0 todo s).2 = false ∧ (pbOuter ids0 todo s).1.sched = [] ∧
        (pbOuter ids0 todo s).1.trace = s.trace ++ pbCallsAll ids0 todo := by
  induction todo with
  | nil => intro s hs; simp [pbOuter, pbCallsAll, hs]
  | cons a rest ih =>
    intro s hs
    have hb := pbInner_basic a ids0 s hs
    rw [pbOuter]
    rcases hpi : pbInner a ids0 s with ⟨s', flag⟩
    rw [hpi] at hb
    simp only at hb
    rcases hb with ⟨hflag, hsched, htrace⟩
    subst hflag
    simp only
    have ih' := ih s' hsched
    refine ⟨ih'.1, ih'.2.1, ?_⟩
    rw [ih'.2.2, htrace, pbCallsAll, List.append_assoc]

theorem pbOuter_zscore (ids0 : List Nat) (todo : List Nat) :
    ∀ s : Sys, s.sched = [] → ∀ (k : String) (m' : Nat),
      zscore0 ((pbOuter ids0 todo s).1.store k) m' =
        zscore0 (s.store k) m' + outerContrib ids0 k m' todo := by
  induction todo with
  | nil => intro s hs k m'; simp [pbOuter, outerContrib]
  | cons a rest ih =>
    intro s hs k m'
    have hb := pbInner_basic a ids0 s hs
    have hsc := pbInner_zscore a ids0 s hs k m'
    rw [pbOuter]
    rcases hpi : pbInner a ids0 s with ⟨s', flag⟩
    rw [hpi] at hb hsc
    simp only at hb hsc
    rcases hb with ⟨hflag, hsched, _⟩
    subst hflag
    simp only
    rw [ih s' hsched k m', hsc, outerContrib]
    ring

theorem pbOuter_keyself (ids0 : List Nat) (todo : List Nat) :
    ∀ s : Sys, s.sched = [] → ∀ p : Nat,
      zsetGet ((pbOuter ids0 todo s).1.store (get_product_key p)) p =
        zsetGet (s.store (get_product_key p)) p := by
  induction todo with
  | nil => intro s hs p; simp [pbOuter]
  | cons a rest ih =>
    intro s hs p
    have hb := pbInner_basic a ids0 s hs
    have hcond : get_product_key p ≠ get_product_key a ∨ p = a ∨ p ∉ ids0 := by
      by_cases hk : get_product_key p = get_product_key a
      · exact Or.inr (Or.inl (get_product_key_inj hk))
      · exact Or.inl hk
    have hu := pbInner_untouched a ids0 s hs (get_product_key p) p hcond
    rw [pbOuter]
    rcases hpi : pbInner a ids0 s with ⟨s', flag⟩
    rw [hpi] at hb hu
    simp only at hb hu
    rcases hb with ⟨hflag, hsched, _⟩
    subst hflag
    simp only
    rw [ih s' hsched p, hu]

/-! ### Counting the increments of `products_bought` -/

theorem filter_ne_eq_self {l : List Nat} {a : Nat} (ha : a ∉ l) :
    l.filter (fun w => decide (a ≠ w)) = l := by
  rw [List.filter_eq_self]
  intro w hw
  simp only [decide_eq_true_eq]
  exact fun hh => ha (hh ▸ hw)

theorem filter_ne_length {l : List Nat} (hn : l.Nodup) :
    ∀ {a : Nat}, a ∈ l → (l.filter (fun w => decide (a ≠ w))).length = l.length - 1 := by
  induction l with
  | nil => intro a ha; cases ha
  | cons x t ih =>
    intro a ha
    rw [List.nodup_cons] at hn
    rcases List.mem_cons.mp ha with h | h
    · subst h
      rw [List.filter_cons]
      have hcond : (decide (a ≠ a)) = false := by simp
      rw [hcond]
      simp only [Bool.false_eq_true, if_false, ite_false]
      rw [filter_ne_eq_self hn.1]
      simp
    · have hxa : x ≠ a := fun hh => hn.1 (hh ▸ h)
      rw [List.filter_cons]
      have hcond : (decide (a ≠ x)) = true := by
        simp only [decide_eq_true_eq]
        exact fun hh => hxa hh.symm
      simp only [hcond, if_pos]
      have ht := ih hn.2 h
      simp only [List.length_cons, ht]
      have : 1 ≤ t.length := by
        cases t with
        | nil => cases h
        | cons y u => simp
      omega

theorem pbCalls_length {ids : List Nat} (hn : ids.Nodup) {a : Nat}
    (ha : a ∈ ids) : (pbCalls a ids).length = ids.length - 1 := by
  rw [pbCalls, List.length_map]
  exact filter_ne_length hn ha

theorem pbCallsAll_length (ids : List Nat) (hn : ids.Nodup) :
    ∀ todo : List Nat, (∀ x ∈ todo, x ∈ ids) →
      (pbCallsAll ids todo).length = todo.length * (ids.length - 1) := by
  intro todo
  induction todo with
  | nil => intro _; simp [pbCallsAll]
  | cons a rest ih =>
    intro h
    rw [pbCallsAll, List.length_append, pbCalls_length hn (h a (by simp)),
      ih (fun x hx => h x (by simp [hx]))]
    simp only [List.length_cons]
    ring

theorem count_map_eq_count {l : List Nat} {g : Nat → RCall} {c : RCall}
    {b : Nat} (hg : ∀ w, g w = c ↔ w = b) :
    (l.map g).count c = l.count b := by
  induction l with
  | nil => simp
  | cons x t ih =>
    simp only [List.map_cons, List.count_cons, ih]
    by_cases hx : x = b
    · have hgx : g x = c := (hg x).mpr hx
      have e1 : (g x == c) = true := by simpa using hgx
      have e2 : (x == b) = true := by simpa using hx
      rw [e1, e2]
    · have hgx : g x ≠ c := fun hh => hx ((hg x).mp hh)
      have e1 : (g x == c) = false := by simpa using hgx
      have e2 : (x == b) = false := by simpa using hx
      rw [e1, e2]

theorem count_map_eq_zero {l : List Nat} {g : Nat → RCall} {c : RCall}
    (hg : ∀ w, g w ≠ c) : (l.map g).count c = 0 := by
  rw [List.count_eq_zero]
  intro hc
  rcases List.mem_map.mp hc with ⟨w, _, hw⟩
  exact hg w hw

theorem count_pbCalls {a b x : Nat} {ids : List Nat} (hab : a ≠ b) :
    (pbCalls x ids).count (RCall.zincrby (get_product_key a) 1 b) =
      if x = a then ids.count b else 0 := by
  by_cases hx : x = a
  · subst hx
    rw [if_pos rfl, pbCalls]
    have hg : ∀ w, RCall.zincrby (get_product_key x) 1 w =
        RCall.zincrby (get_product_key x) 1 b ↔ w = b := by
      intro w
      constructor
      · intro hh
        injection hh with h1 h2 h3
      · intro hh; rw [hh]
    rw [count_map_eq_count hg]
    exact List.count_filter (by simpa using fun hh : x = b => hab hh)
  · rw [if_neg hx, pbCalls]
    apply count_map_eq_zero
    intro w hh
    injection hh with h1 h2 h3
    exact hx (get_product_key_inj h1)

theorem count_pbCallsAll {a b : Nat} {ids : List Nat} (hab : a ≠ b) :
    ∀ todo : List Nat,
      (pbCallsAll ids todo).count (RCall.zincrby (get_product_key a) 1 b) =
        todo.count a * ids.count b := by
  intro todo
  induction todo with
  | nil => simp [pbCallsAll]
  | cons x rest ih =>
    rw [pbCallsAll, List.count_append, ih, count_pbCalls hab, List.count_cons]
    by_cases hx : x = a
    · have e2 : (x == a) = true := by simpa using hx
      rw [if_pos hx, e2]
      simp only [ite_true]
      ring
    · have e2 : (x == a) = false := by simpa using hx
      rw [if_neg hx, e2]
      simp only [Bool.false_eq_true, if_false, ite_false]
      ring

theorem outerContrib_value {a b : Nat} {ids : List Nat} (hba : b ≠ a) :
    ∀ todo : List Nat,
      outerContrib ids (get_product_key a) b todo =
        (todo.count a : Int) * (ids.count b : Int) := by
  intro todo
  induction todo with
  | nil => simp [outerContrib]
  | cons x rest ih =>
    rw [outerContrib, ih, List.count_cons]
    by_cases hx : x = a
    · rcases hx with rfl
      rw [if_pos (And.intro rfl hba)]
      have e2 : (x == x) = true := by simp
      rw [e2]
      simp only [ite_true]
      push_cast
      ring
    · have hk : get_product_key a ≠ get_product_key x :=
        fun hh => hx (get_product_key_inj hh).symm
      have e2 : (x == a) = false := by simpa using hx
      rw [if_neg (fun hc : get_product_key a = get_product_key x ∧ b ≠ x =>
        hk hc.1), e2]
      simp only [Bool.false_eq_true, if_false, ite_false]
      push_cast
      ring

/-! ### Store-update algebra and `suggest` unfolding -/

theorem storeSet_self (st : Store) (k : String) (z : ZSet) :
    storeSet st k z k = z := by simp [storeSet]

theorem storeSet_storeSet (st : Store) (k : String) (z₁ z₂ : ZSet) :
    storeSet (storeSet st k z₁) k z₂ = storeSet st k z₂ := by
  funext k'
  by_cases h : k' = k <;> simp [storeSet, h]

theorem suggest_single_nofail (catalog : List Nat) (p : Nat) (k : Nat)
    (s : Sys) (hs : s.sched = []) :
    suggest_products_for true catalog [p] k s =
      (⟨s.store, [], s.clock + 1, s.trace ++ [.zrange (get_product_key p)]⟩,
       some (resolve_products catalog
         ((zrangeDesc (s.store (get_product_key p))).take k))) := by
  rw [suggest_products_for]
  simp only [Bool.not_true, Bool.false_eq_true, if_false, ite_false]
  rw [issue_nofail s _ hs]
  simp [applyCall]

theorem suggest_multi_nofail (catalog : List Nat) (a b : Nat)
    (rest : List Nat) (k : Nat) (s : Sys) (hs : s.sched = []) :
    suggest_products_for true catalog (a :: b :: rest) k s =
      (⟨storeSet s.store (tmp_key_of (a :: b :: rest)) [], [], s.clock + 4,
        s.trace ++
          [.zunionstore (tmp_key_of (a :: b :: rest))
              ((a :: b :: rest).map get_product_key),
           .zrem (tmp_key_of (a :: b :: rest)) (a :: b :: rest),
           .zrange (tmp_key_of (a :: b :: rest)),
           .del (tmp_key_of (a :: b :: rest))]⟩,
       some (resolve_products catalog
         ((zrangeDesc (zremZ
             (zunionZ (((a :: b :: rest).map get_product_key).map s.store))
             (a :: b :: rest))).take k))) := by
  rw [suggest_products_for]
  simp only [Bool.not_true, Bool.false_eq_true, if_false, ite_false]
  rw [issue_nofail s _ hs]
  simp only [applyCall]
  rw [issue_nofail _ _ rfl]
  simp only [applyCall, storeSet_self]
  rw [issue_nofail _ _ rfl]
  simp only [applyCall]
  rw [issue_nofail _ _ rfl]
  simp only [applyCall, storeSet_self, storeSet_storeSet]
  simp [List.append_assoc]
  intro p hp
  simp at hp

theorem mem_resolve_subset {catalog sugg : List Nat} {q : Nat}
    (h : q ∈ resolve_products catalog sugg) : q ∈ sugg := by
  rw [resolve_products] at h
  rw [List.mem_insertionSort] at h
  have := List.of_mem_filter h
  simpa using this

theorem reachable_selfFree {st : Store} (h : ReachableStore st) :
    SelfFree st := by
  induction h with
  | empty => intro p; rfl
  | record st basket hr hb ih =>
    intro p
    have hk := pbOuter_keyself basket basket ⟨st, [], 0, []⟩ rfl p
    rw [products_bought]
    simp only [Bool.not_true, Bool.false_eq_true, if_false, ite_false]
    rw [hk]
    exact ih p

/-! ### Claim C1 -/

/-- C1: a successful `products_bought` call over a basket of n distinct
product ids issues exactly one delta-1 increment for every ordered pair
(a, b) with a ≠ b — n·(n−1) increments in total — raises nothing, bumps
score(a→b) by exactly 1 for every such pair, and never writes a score for
a product under its own affinity key. -/
theorem C1_recordCoPurchase_pairwise_increments (s : Sys) (ids : List Nat)
    (hn : ids.Nodup) (hs : s.sched = []) :
    (products_bought true ids s).2 = false ∧
    (products_bought true ids s).1.trace.length =
      s.trace.length + ids.length * (ids.length - 1) ∧
    (∀ a ∈ ids, ∀ b ∈ ids, a ≠ b →
      (products_bought true ids s).1.trace.count
          (RCall.zincrby (get_product_key a) 1 b) =
        s.trace.count (RCall.zincrby (get_product_key a) 1 b) + 1 ∧
      zscore0 ((products_bought true ids s).1.store (get_product_key a)) b =
        zscore0 (s.store (get_product_key a)) b + 1) ∧
    (∀ p : Nat,
      zsetGet ((products_bought true ids s).1.store (get_product_key p)) p =
        zsetGet (s.store (get_product_key p)) p) := by
  have hpb : products_bought true ids s = pbOuter ids ids s := by
    rw [products_bought]
    simp
  rw [hpb]
  obtain ⟨hflag, _, htrace⟩ := pbOuter_basic ids ids s hs
  refine ⟨hflag, ?_, ?_, ?_⟩
  · rw [htrace, List.length_append,
      pbCallsAll_length ids hn ids (fun x hx => hx)]
  · intro a ha b hb hab
    constructor
    · rw [htrace, List.count_append, count_pbCallsAll hab ids,
        List.count_eq_one_of_mem hn ha, List.count_eq_one_of_mem hn hb]
    · rw [pbOuter_zscore ids ids s hs (get_product_key a) b,
        outerContrib_value (fun hh => hab hh.symm) ids,
        List.count_eq_one_of_mem hn ha, List.count_eq_one_of_mem hn hb]
      push_cast
      ring
  · intro p
    exact pbOuter_keyself ids ids s hs p

theorem C1_witness :
    ([1, 2, 3] : List Nat).Nodup ∧
    (Sys.mk emptyStore [] 0 []).sched = [] ∧
    zscore0 ((products_bought true [1, 2, 3]
        (Sys.mk emptyStore [] 0 [])).1.store (get_product_key 1)) 2 =
      zscore0 ((Sys.mk emptyStore [] 0 []).store (get_product_key 1)) 2 + 1 :=
  ⟨by decide, rfl,
    ((C1_recordCoPurchase_pairwise_increments (Sys.mk emptyStore [] 0 [])
        [1, 2, 3] (by decide) rfl).2.2.1
      1 (by decide) 2 (by decide) (by decide)).2⟩

/-! ### Claim C2 -/

/-- C2: for a non-empty query and positive result bound, in any keyspace
reachable by successful `products_bought` calls over distinct-product
baskets, the list `suggest_products_for` returns contains no member of the
query; in particular a product is never suggested for itself. -/
theorem C2_suggest_excludes_query (s : Sys) (catalog Q : List Nat)
    (k : Nat) (hk : 0 < k) (hs : s.sched = [])
    (hr : ReachableStore s.store) (hQ : Q ≠ []) :
    ∀ q ∈ Q, ∀ l, (suggest_products_for true catalog Q k s).2 = some l →
      q ∉ l := by
  intro q hq l hl hql
  match Q, hq, hl with
  | [p], hq, hl =>
    rw [suggest_single_nofail catalog p k s hs] at hl
    simp only [Option.some.injEq] at hl
    subst hl
    have hqp : q = p := by simpa using hq
    subst hqp
    have h1 : q ∈ (zrangeDesc (s.store (get_product_key q))).take k :=
      mem_resolve_subset hql
    have h2 : q ∈ zrangeDesc (s.store (get_product_key q)) :=
      List.mem_of_mem_take h1
    rw [mem_zrangeDesc_iff] at h2
    rw [reachable_selfFree hr q] at h2
    simp at h2
  | a :: b :: rest, hq, hl =>
    rw [suggest_multi_nofail catalog a b rest k s hs] at hl
    simp only [Option.some.injEq] at hl
    subst hl
    have h1 : q ∈ (zrangeDesc (zremZ
        (zunionZ (((a :: b :: rest).map get_product_key).map s.store))
        (a :: b :: rest))).take k := mem_resolve_subset hql
    have h2 := List.mem_of_mem_take h1
    rw [mem_zrangeDesc_iff] at h2
    rw [zsetGet_zrem_mem _ _ _ hq] at h2
    simp at h2

theorem C2_witness :
    (0 : Nat) < 1 ∧ ReachableStore (Sys.mk emptyStore [] 0 []).store ∧
    ([1] : List Nat) ≠ [] ∧ (1 : Nat) ∉ ([] : List Nat) :=
  ⟨by decide, ReachableStore.empty, by decide,
    C2_suggest_excludes_query (Sys.mk emptyStore [] 0 []) [1, 2] [1] 1
      (by decide) rfl ReachableStore.empty (by decide) 1 (by decide) []
      (by decide)⟩

/-! ### Catalog resolution: the stable re-sort restores rank order -/

theorem pairwise_strict_of_sorted_nodup {sugg : List Nat} :
    ∀ {L : List Nat}, (∀ x ∈ L, x ∈ sugg) → L.Pairwise (relIdx sugg) →
      L.Nodup → L.Pairwise (fun a b => sugg.indexOf a < sugg.indexOf b) := by
  intro L
  induction L with
  | nil => intro _ _ _; exact List.Pairwise.nil
  | cons x t ih =>
    intro hsub hsorted hnd
    rw [List.pairwise_cons] at hsorted ⊢
    rw [List.nodup_cons] at hnd
    refine ⟨?_, ih (fun y hy => hsub y (List.mem_cons_of_mem _ hy))
      hsorted.2 hnd.2⟩
    intro y hy
    have h1 : relIdx sugg x y := hsorted.1 y hy
    have hxy : x ≠ y := fun hh => hnd.1 (hh ▸ hy)
    have hxs : x ∈ sugg := hsub x (by simp)
    have hys : y ∈ sugg := hsub y (List.mem_cons_of_mem _ hy)
    have hne : sugg.indexOf x ≠ sugg.indexOf y :=
      fun hh => hxy ((List.indexOf_inj hxs hys).mp hh)
    exact lt_of_le_of_ne h1 hne

theorem resolve_products_eq_filter {db sugg : List Nat} (hs : sugg.Nodup)
    (hdb : db.Nodup) :
    resolve_products db sugg = sugg.filter (fun i => decide (i ∈ db)) := by
  have hFnd : (db.filter (fun i => decide (i ∈ sugg))).Nodup := hdb.filter _
  have hRnd : (sugg.filter (fun i => decide (i ∈ db))).Nodup := hs.filter _
  have hLF := List.perm_insertionSort (relIdx sugg)
    (db.filter (fun i => decide (i ∈ sugg)))
  have hFR : (db.filter (fun i => decide (i ∈ sugg))).Perm
      (sugg.filter (fun i => decide (i ∈ db))) := by
    rw [List.perm_ext_iff_of_nodup hFnd hRnd]
    intro x
    simp only [List.mem_filter, decide_eq_true_eq]
    exact and_comm
  have hLR := hLF.trans hFR
  have hLnd : (List.insertionSort (relIdx sugg)
      (db.filter (fun i => decide (i ∈ sugg)))).Nodup :=
    hLF.nodup_iff.mpr hFnd
  have hLsorted := List.sorted_insertionSort (relIdx sugg)
    (db.filter (fun i => decide (i ∈ sugg)))
  have hLsub : ∀ x ∈ List.insertionSort (relIdx sugg)
      (db.filter (fun i => decide (i ∈ sugg))), x ∈ sugg := by
    intro x hx
    have hxF := hLF.mem_iff.mp hx
    have := List.of_mem_filter hxF
    simpa using this
  have hLstrict := pairwise_strict_of_sorted_nodup hLsub hLsorted hLnd
  have hRstrict : (sugg.filter (fun i => decide (i ∈ db))).Pairwise
      (fun a b => sugg.indexOf a < sugg.indexOf b) :=
    (nodup_pairwise_indexOf_lt hs).sublist (List.filter_sublist sugg)
  haveI : IsAntisymm Nat (fun a b => sugg.indexOf a < sugg.indexOf b) :=
    ⟨fun a b h₁ h₂ => absurd (h₁.trans h₂) (lt_irrefl _)⟩
  exact List.eq_of_perm_of_sorted hLR hLstrict hRstrict

/-! ### Claim C8 -/

/-- C8: for any ranked id sequence handed to the catalog and any
enumeration order `db` of the catalog, the resolution step returns exactly
the rank sequence restricted to ids the catalog can resolve; unresolvable
ids are silently dropped. -/
theorem C8_catalog_resolution (catalog db sugg : List Nat)
    (hs : sugg.Nodup) (hcat : catalog.Nodup) (hdb : db.Perm catalog) :
    resolve_products db sugg = sugg.filter (fun i => decide (i ∈ catalog)) := by
  have hdbnd : db.Nodup := hdb.nodup_iff.mpr hcat
  rw [resolve_products_eq_filter hs hdbnd]
  apply List.filter_congr
  intro x _
  simp [hdb.mem_iff]

theorem C8_witness :
    ([3, 1] : List Nat).Nodup ∧ ([1, 2] : List Nat).Nodup ∧
    ([2, 1] : List Nat).Perm [1, 2] ∧
    resolve_products [2, 1] [3, 1] =
      List.filter (fun i => decide (i ∈ [1, 2])) [3, 1] :=
  ⟨by decide, by decide, List.Perm.swap 1 2 [],
    C8_catalog_resolution [1, 2] [2, 1] [3, 1] (by decide) (by decide)
      (List.Perm.swap 1 2 [])⟩

/-! ### Claim C3 -/

/-- C3: a successful `suggest_products_for` call over a non-empty query
returns at most `max_results` products, and the returned sequence is
ordered by non-increasing aggregate score of the zset whose descending
range was read (rank order survives catalog resolution). -/
theorem C3_topk_and_sorted (s : Sys) (catalog ids : List Nat) (k : Nat)
    (hk : 0 < k) (hs : s.sched = []) (hwf : WFStore s.store)
    (hcat : catalog.Nodup) (hids : ids ≠ []) :
    ∀ l, (suggest_products_for true catalog ids k s).2 = some l →
      l.length ≤ k ∧
      l.Pairwise (fun x y => zscore0 (read_zset s.store ids) y ≤
        zscore0 (read_zset s.store ids) x) := by
  match ids, hids with
  | [p], _ =>
    intro l hl
    rw [suggest_single_nofail catalog p k s hs] at hl
    simp only [Option.some.injEq] at hl
    subst hl
    have hz : ZNodup (s.store (get_product_key p)) := hwf _
    have hsugg : ((zrangeDesc (s.store (get_product_key p))).take k).Nodup :=
      (zrangeDesc_nodup _ hz).sublist (List.take_sublist k _)
    rw [resolve_products_eq_filter hsugg hcat]
    constructor
    · calc (((zrangeDesc (s.store (get_product_key p))).take k).filter
            (fun i => decide (i ∈ catalog))).length
          ≤ ((zrangeDesc (s.store (get_product_key p))).take k).length :=
            List.length_filter_le _ _
        _ ≤ k := List.length_take_le _ _
    · have hsorted := zrangeDesc_sorted (s.store (get_product_key p)) hz
      have h1 : ((zrangeDesc (s.store (get_product_key p))).take k).Pairwise
          (fun x y => zscore0 (s.store (get_product_key p)) y ≤
            zscore0 (s.store (get_product_key p)) x) :=
        hsorted.sublist (List.take_sublist k _)
      have h2 : (((zrangeDesc (s.store (get_product_key p))).take k).filter
          (fun i => decide (i ∈ catalog))).Pairwise
          (fun x y => zscore0 (s.store (get_product_key p)) y ≤
            zscore0 (s.store (get_product_key p)) x) :=
        h1.sublist (List.filter_sublist _)
      simpa [read_zset] using h2
  | a :: b :: rest, _ =>
    intro l hl
    rw [suggest_multi_nofail catalog a b rest k s hs] at hl
    simp only [Option.some.injEq] at hl
    subst hl
    have hz : ZNodup (zremZ
        (zunionZ (((a :: b :: rest).map get_product_key).map s.store))
        (a :: b :: rest)) :=
      znodup_zremZ _ _ (znodup_zunionZ _)
    have hsugg : ((zrangeDesc (zremZ
        (zunionZ (((a :: b :: rest).map get_product_key).map s.store))
        (a :: b :: rest))).take k).Nodup :=
      (zrangeDesc_nodup _ hz).sublist (List.take_sublist k _)
    rw [resolve_products_eq_filter hsugg hcat]
    constructor
    · calc _ ≤ ((zrangeDesc (zremZ
            (zunionZ (((a :: b :: rest).map get_product_key).map s.store))
            (a :: b :: rest))).take k).length := List.length_filter_le _ _
        _ ≤ k := List.length_take_le _ _
    · have hsorted := zrangeDesc_sorted _ hz
      have h1 : ((zrangeDesc (zremZ
          (zunionZ (((a :: b :: rest).map get_product_key).map s.store))
          (a :: b :: rest))).take k).Pairwise
          (fun x y => zscore0 (zremZ
              (zunionZ (((a :: b :: rest).map get_product_key).map s.store))
              (a :: b :: rest)) y ≤
            zscore0 (zremZ
              (zunionZ (((a :: b :: rest).map get_product_key).map s.store))
              (a :: b :: rest)) x) :=
        hsorted.sublist (List.take_sublist k _)
      have h2 : (((zrangeDesc (zremZ
          (zunionZ (((a :: b :: rest).map get_product_key).map s.store))
          (a :: b :: rest))).take k).filter
          (fun i => decide (i ∈ catalog))).Pairwise
          (fun x y => zscore0 (zremZ
              (zunionZ (((a :: b :: rest).map get_product_key).map s.store))
              (a :: b :: rest)) y ≤
            zscore0 (zremZ
              (zunionZ (((a :: b :: rest).map get_product_key).map s.store))
              (a :: b :: rest)) x) :=
        h1.sublist (List.filter_sublist _)
      simpa [read_zset] using h2

theorem C3_witness :
    (0 : Nat) < 2 ∧ WFStore emptyStore ∧ ([1] : List Nat).Nodup ∧
    ([2] : List Nat) ≠ [] ∧
    (([] : List Nat).length ≤ 2 ∧
      ([] : List Nat).Pairwise (fun x y => zscore0 (read_zset emptyStore [2]) y ≤
        zscore0 (read_zset emptyStore [2]) x)) :=
  ⟨by decide, fun _ => List.Pairwise.nil, by decide, by decide,
    C3_topk_and_sorted (Sys.mk emptyStore [] 0 []) [1] [2] 2 (by decide) rfl
      (fun _ => List.Pairwise.nil) (by decide) (by decide) [] (by decide)⟩

/-! ### `clear_purchases` loop lemmas and claim C9 -/

theorem cpGo_basic (todo : List Nat) :
    ∀ s : Sys, s.sched = [] →
      (cpGo todo s).2 = false ∧ (cpGo todo s).1.sched = [] := by
  induction todo with
  | nil => intro s hs; simp [cpGo, hs]
  | cons x rest ih =>
    intro s hs
    rw [cpGo, issue_nofail s _ hs]
    exact ih _ rfl

theorem cpGo_store_cases (todo : List Nat) :
    ∀ s : Sys, s.sched = [] → ∀ k : String,
      (cpGo todo s).1.store k = s.store k ∨ (cpGo todo s).1.store k = [] := by
  induction todo with
  | nil => intro s hs k; left; rw [cpGo]
  | cons x rest ih =>
    intro s hs k
    rw [cpGo, issue_nofail s _ hs]
    simp only [applyCall]
    rcases ih ⟨storeSet s.store (get_product_key x) [], [], s.clock + 1,
      s.trace ++ [.del (get_product_key x)]⟩ rfl k with h | h
    · simp only at h
      rw [h]
      by_cases hk : k = get_product_key x
      · right; simp [storeSet, hk]
      · left; simp [storeSet, hk]
    · right; exact h

theorem cpGo_clears (todo : List Nat) :
    ∀ s : Sys, s.sched = [] → ∀ p ∈ todo,
      (cpGo todo s).1.store (get_product_key p) = [] := by
  induction todo with
  | nil => intro s hs p hp; cases hp
  | cons x rest ih =>
    intro s hs p hp
    rw [cpGo, issue_nofail s _ hs]
    simp only [applyCall]
    rcases List.mem_cons.mp hp with h | h
    · subst h
      rcases cpGo_store_cases rest ⟨storeSet s.store (get_product_key p) [],
          [], s.clock + 1, s.trace ++ [.del (get_product_key p)]⟩ rfl
          (get_product_key p) with hc | hc
      · simp only at hc
        rw [hc, storeSet_self]
      · exact hc
    · exact ih _ rfl p h

theorem resolve_products_nil (catalog : List Nat) :
    resolve_products catalog [] = [] := by
  rw [resolve_products]
  have : catalog.filter (fun i => decide (i ∈ ([] : List Nat))) = [] := by
    simp
  rw [this]
  rfl

/-- C9: after a successful `clear_purchases` pass over the catalog's ids,
a successful single-product `suggest_products_for` returns the empty list
for every cleared product and every positive bound. -/
theorem C9_clear_then_suggest_empty (s : Sys) (allIDs catalog : List Nat)
    (p k : Nat) (hp : p ∈ allIDs) (hk : 0 < k) (hs : s.sched = []) :
    (suggest_products_for true catalog [p] k
      ((clear_purchases true allIDs s).1)).2 = some [] := by
  have hcp : clear_purchases true allIDs s = cpGo allIDs s := by
    rw [clear_purchases]
    simp
  rw [hcp]
  have hsched := (cpGo_basic allIDs s hs).2
  rw [suggest_single_nofail catalog p k _ hsched]
  simp only
  rw [cpGo_clears allIDs s hs p hp]
  have hzr : zrangeDesc ([] : ZSet) = [] := rfl
  rw [hzr]
  simp only [List.take_nil]
  rw [resolve_products_nil]

theorem C9_witness :
    (1 : Nat) ∈ ([1, 2] : List Nat) ∧ (0 : Nat) < 5 ∧
    (suggest_products_for true [1, 2] [1] 5
      ((clear_purchases true [1, 2] (Sys.mk emptyStore [] 0 [])).1)).2 =
      some [] :=
  ⟨by decide, by decide,
    C9_clear_then_suggest_empty (Sys.mk emptyStore [] 0 []) [1, 2] [1, 2]
      1 5 (by decide) (by decide) rfl⟩

/-! ### Claim C7 -/

/-- C7: with no store connection (degraded mode), `suggest_products_for`
returns the empty list, and `products_bought` and `clear_purchases`
return silently; none of them issues a store call or changes any state. -/
theorem C7_degraded_mode_noop (s : Sys) (catalog ids : List Nat) (k : Nat) :
    products_bought false ids s = (s, false) ∧
    suggest_products_for false catalog ids k s = (s, some []) ∧
    clear_purchases false catalog s = (s, false) :=
  ⟨rfl, rfl, rfl⟩

/-! ### Claim C4 (corrected): store-call failures propagate and leave
partial commits -/

theorem C4_counterexample :
    (products_bought true [1, 2]
        (Sys.mk emptyStore [false, true] 0 [])).2 = true ∧
    zscore0 ((products_bought true [1, 2]
        (Sys.mk emptyStore [false, true] 0 [])).1.store
        (get_product_key 1)) 2 = 1 := by
  constructor <;> decide

/-- C4 (amended): when a store call raises partway through, the operation
does not swallow the error and does not roll back: `products_bought`
propagates the exception with the earlier increment still committed and
the later one missing, and a `suggest_products_for` call whose first store
call raises propagates the exception (`none`) instead of returning a
list. -/
theorem C4_amended_failure_propagates (s : Sys) (a b : Nat) (hab : a ≠ b)
    (hsched : s.sched = [false, true]) (hclock : s.clock = 0) :
    (products_bought true [a, b] s).2 = true ∧
    zscore0 ((products_bought true [a, b] s).1.store (get_product_key a)) b =
      zscore0 (s.store (get_product_key a)) b + 1 ∧
    zsetGet ((products_bought true [a, b] s).1.store (get_product_key b)) a =
      zsetGet (s.store (get_product_key b)) a ∧
    (∀ (st : Store) (tr : List RCall) (qs catalog : List Nat) (kk : Nat),
      (suggest_products_for true catalog qs kk
        (Sys.mk st [true] 0 tr)).2 = none) := by
  obtain ⟨st, sched, clock, tr⟩ := s
  simp only at hsched hclock
  subst hsched
  subst hclock
  have hpb : products_bought true [a, b] ⟨st, [false, true], 0, tr⟩ =
      (⟨storeSet st (get_product_key a)
          (zincrbyZ (st (get_product_key a)) 1 b),
        [false, true], 2,
        tr ++ [.zincrby (get_product_key a) 1 b,
               .zincrby (get_product_key b) 1 a]⟩, true) := by
    simp [products_bought, pbOuter, pbInner, issue, applyCall, hab,
      Ne.symm hab, List.getD]
  refine ⟨?_, ?_, ?_, ?_⟩
  · rw [hpb]
  · rw [hpb]
    simp only [storeSet_self]
    rw [zscore0_zincrby_self]
  · rw [hpb]
    have hkey : get_product_key b ≠ get_product_key a :=
      fun hh => hab (get_product_key_inj hh).symm
    simp [storeSet, hkey]
  · intro st' tr' qs catalog kk
    rcases qs with _ | ⟨p, _ | ⟨y, r⟩⟩ <;> rfl

theorem C4_witness :
    (1 : Nat) ≠ 2 ∧ (Sys.mk emptyStore [false, true] 0 []).sched =
      [false, true] ∧
    (suggest_products_for true [] [5] 3
      (Sys.mk emptyStore [true] 0 [])).2 = none :=
  ⟨by decide, rfl,
    (C4_amended_failure_propagates (Sys.mk emptyStore [false, true] 0 [])
        1 2 (by decide) rfl rfl).2.2.2 emptyStore [] [5] [] 3⟩

/-! ### Claim C5 (corrected): the transient key depends on query order -/

theorem C5_counterexample :
    ([1, 2] : List Nat).Perm [2, 1] ∧
    tmp_key_of [1, 2] ≠ tmp_key_of [2, 1] :=
  ⟨List.Perm.swap 2 1 [], by decide⟩

/-- C5 (amended): the transient key is a deterministic function of the
query list as given — the fixed tag followed by the decimal renderings of
the ids concatenated in input order, with no sorting and no
deduplication — and every store call of the multi-product branch uses
exactly that key; two lists holding the same id set in different orders
may therefore derive different keys. -/
theorem C5_amended_tmp_key_from_input_order (catalog : List Nat)
    (a b : Nat) (rest : List Nat) (k : Nat) (s : Sys) (hs : s.sched = []) :
    tmp_key_of (a :: b :: rest) =
      "tmp_" ++ String.join ((a :: b :: rest).map (fun i => toString i)) ∧
    (suggest_products_for true catalog (a :: b :: rest) k s).1.trace =
      s.trace ++
        [.zunionstore (tmp_key_of (a :: b :: rest))
            ((a :: b :: rest).map get_product_key),
         .zrem (tmp_key_of (a :: b :: rest)) (a :: b :: rest),
         .zrange (tmp_key_of (a :: b :: rest)),
         .del (tmp_key_of (a :: b :: rest))] := by
  constructor
  · rfl
  · rw [suggest_multi_nofail catalog a b rest k s hs]

theorem C5_witness :
    (Sys.mk emptyStore [] 0 []).sched = [] ∧
    tmp_key_of [1, 2] =
      "tmp_" ++ String.join (([1, 2] : List Nat).map (fun i => toString i)) :=
  ⟨rfl,
    (C5_amended_tmp_key_from_input_order [] 1 2 [] 6
      (Sys.mk emptyStore [] 0 []) rfl).1⟩

/-! ### Claim C6 (corrected): the transient key is deleted only when the
earlier steps succeed -/

theorem C6_counterexample :
    (suggest_products_for true [] [1, 3] 6
        (Sys.mk (storeSet emptyStore (get_product_key 1) [(2, 1)])
          [false, true] 0 [])).2 = none ∧
    RCall.del (tmp_key_of [1, 3]) ∉
      (suggest_products_for true [] [1, 3] 6
        (Sys.mk (storeSet emptyStore (get_product_key 1) [(2, 1)])
          [false, true] 0 [])).1.trace ∧
    (suggest_products_for true [] [1, 3] 6
        (Sys.mk (storeSet emptyStore (get_product_key 1) [(2, 1)])
          [false, true] 0 [])).1.store (tmp_key_of [1, 3]) = [(2, 1)] := by
  refine ⟨by decide, by decide, by decide⟩

/-- C6 (amended): the multi-product branch deletes its transient key only
when the union, removal and range steps have all succeeded — on a fully
successful call the delete is issued and the key's map is empty
afterwards; when an earlier step raises, the call aborts without ever
issuing the delete, and the transient key can survive with content (see
the counterexample). -/
theorem C6_amended_delete_on_success (catalog : List Nat) (a b : Nat)
    (rest : List Nat) (k : Nat) (s : Sys) (hs : s.sched = []) :
    RCall.del (tmp_key_of (a :: b :: rest)) ∈
      (suggest_products_for true catalog (a :: b :: rest) k s).1.trace ∧
    (suggest_products_for true catalog (a :: b :: rest) k s).1.store
      (tmp_key_of (a :: b :: rest)) = [] := by
  rw [suggest_multi_nofail catalog a b rest k s hs]
  constructor
  · simp
  · exact storeSet_self _ _ _

theorem C6_witness :
    (Sys.mk emptyStore [] 0 []).sched = [] ∧
    (suggest_products_for true [] [1, 2] 6
      (Sys.mk emptyStore [] 0 [])).1.store (tmp_key_of [1, 2]) = [] :=
  ⟨rfl,
    (C6_amended_delete_on_success [] 1 2 [] 6
      (Sys.mk emptyStore [] 0 []) rfl).2⟩

/-! ### Claim C10 -/

/-- C10: the transient-key derivation concatenates decimal ids with no
separator, so it is not injective on query sets: the distinct id lists
`[1, 23]` and `[12, 3]` (which even hold disjoint id sets) derive the
same transient key `tmp_123`. -/
theorem C10_tmp_key_not_injective :
    tmp_key_of [1, 23] = tmp_key_of [12, 3] ∧
    tmp_key_of [1, 23] = "tmp_123" ∧
    ([1, 23] : List Nat) ≠ [12, 3] ∧
    (1 : Nat) ∈ ([1, 23] : List Nat) ∧ (1 : Nat) ∉ ([12, 3] : List Nat) := by
  refine ⟨by decide, by decide, by decide, by decide, by decide⟩

end Shop
